import Mathlib

/-!
# Video transfer over TCP: the send loop and the receive loop

A shallow embedding of `send_video` (sender.c, from the `fseek` that measures the
file to the final status label) and of `receive_video` (receiver.c, from the
header `recv` to the final status label), and the properties of the wire format,
the chunk schedule and the progress accounting.

Modelling conventions.

* A file is read through `fread`: it is the list of the bytes the successive calls
  deliver; `fread(buffer, 1, 1024, f)` returns the next at most 1024 bytes and 0 only
  when there are no more.
* The value returned by `ftell` is a separate input of the sender.  The code does not
  check it and nothing in the code ties it to what `fread` delivers afterwards: for a
  regular file that does not change it is the length of the file, for a file that grows
  it is smaller, for a file of `/proc` it is 0, and on failure it is `-1`.
* The socket is the environment.  On the sending side it is a function giving the
  return value of each `send` call; on the receiving side it is the list of the
  results of the successive `recv` calls.  When that list runs out before a `recv`
  returned a value `<= 0`, the pending call never returns and the receiver stays
  where it is (`returned = false`).
* `size_t` is 8 bytes: counters are naturals reduced modulo `2 ^ 64`, and the
  header is the object representation of a `size_t` on a little-endian machine.
* `(double)a / b` is modelled by `fdiv`: the exact quotient when `b` is not zero
  (rounding to binary64 is not modelled), and the IEEE special values when `b`
  is zero.
* Everything the two functions do that an observer can see is recorded, in order,
  in a trace of `Event`s.
-/

namespace VideoTransfer

/-- One octet of file or socket data (`unsigned char`). -/
abbrev Byte := Fin 256

/-- Size of the chunk buffer, `sizeof(buffer)` for `unsigned char buffer[1024]`. -/
def BUFFER_SIZE : Nat := 1024

/-- Number of values of a `size_t`. -/
def SIZE_RANGE : Nat := 2 ^ 64

/-- Value of a C division `(double)a / b` of two unsigned integers. -/
inductive Fraction where
  /-- The quotient of a division by a divisor that is not zero. -/
  | finite (q : ℚ)
  /-- A positive count divided by zero (IEEE `+inf`). -/
  | infinite
  /-- Zero divided by zero (IEEE `NaN`). -/
  | undefined
  deriving DecidableEq

/-- The C expression `(double)a / b` for `size_t` operands `a` and `b`. -/
def fdiv (a b : Nat) : Fraction :=
  if b = 0 then (if a = 0 then Fraction.undefined else Fraction.infinite)
  else Fraction.finite ((a : ℚ) / (b : ℚ))

/-- The comparison `x <= y` of two doubles: false as soon as one side is `NaN`. -/
def Fraction.le : Fraction → Fraction → Prop
  | Fraction.finite p, Fraction.finite q => p ≤ q
  | Fraction.finite _, Fraction.infinite => True
  | Fraction.infinite, Fraction.infinite => True
  | _, _ => False

instance Fraction.decidableLe : DecidableRel Fraction.le := fun x y =>
  match x, y with
  | Fraction.finite p, Fraction.finite q => inferInstanceAs (Decidable (p ≤ q))
  | Fraction.finite _, Fraction.infinite => isTrue trivial
  | Fraction.infinite, Fraction.infinite => isTrue trivial
  | Fraction.finite _, Fraction.undefined => isFalse (fun h => h)
  | Fraction.infinite, Fraction.finite _ => isFalse (fun h => h)
  | Fraction.infinite, Fraction.undefined => isFalse (fun h => h)
  | Fraction.undefined, _ => isFalse (fun h => by cases y <;> exact h)

/-- The value lies in the closed interval `[0, 1]`. -/
def Fraction.inUnit : Fraction → Prop
  | Fraction.finite q => 0 ≤ q ∧ q ≤ 1
  | _ => False

instance Fraction.decidableInUnit : DecidablePred Fraction.inUnit := fun x =>
  match x with
  | Fraction.finite q => inferInstanceAs (Decidable (0 ≤ q ∧ q ≤ 1))
  | Fraction.infinite => isFalse (fun h => h)
  | Fraction.undefined => isFalse (fun h => h)

/-- Text put in the status label. -/
inductive Label where
  /-- A fixed text. -/
  | text (s : String)
  /-- The text printed by `snprintf(status, .., "Transfer: %.2f%%", progress * 100)`. -/
  | percent (progress : Fraction)
  deriving DecidableEq

/-- What the two programs do that can be observed from outside. -/
inductive Event where
  /-- A call `send(socket, buf, len, 0)` with `len = buf.length`, and the value it returned. -/
  | send (buf : List Byte) (ret : Int)
  /-- A call `fwrite(buffer, 1, n, file)`, with the `n` bytes written. -/
  | fwrite (bs : List Byte)
  /-- The fraction handed to the progress bar. -/
  | progress (f : Fraction)
  /-- The status label is set. -/
  | label (l : Label)
  deriving DecidableEq

/-! ## The size header -/

/-- The first `k` bytes of the little-endian object representation of `n`. -/
def encodeLE : Nat → Nat → List Byte
  | 0, _ => []
  | k + 1, n => ⟨n % 256, Nat.mod_lt n (by decide)⟩ :: encodeLE k (n / 256)

/-- The value of an unsigned integer whose little-endian bytes are `bs`
(bytes past the end of `bs` are zero). -/
def decodeLE : List Byte → Nat
  | [] => 0
  | b :: bs => b.val + 256 * decodeLE bs

/-- The 8 bytes at `&file_size`, as handed to `send`. -/
def sizeBytes (n : Nat) : List Byte := encodeLE 8 n

/-! ## The sender -/

/-- What `send_video` leaves behind: the trace and the final value of `total_sent`. -/
structure SendResult where
  trace : List Event
  total_sent : Nat

/-- The `while ((bytes_read = fread(..)) > 0)` loop of `send_video`.
`rest` is the part of the file not yet read, `call` the number of `send` calls
made so far, `sendRet call len` the value returned by `send` call number `call`
when asked to send `len` bytes. -/
def sendLoop (file_size : Nat) (sendRet : Nat → Nat → Int)
    (rest : List Byte) (total_sent : Nat) (call : Nat) : SendResult :=
  let buffer := rest.take BUFFER_SIZE
  let bytes_read := buffer.length
  if bytes_read > 0 then
    let r := sendRet call bytes_read
    if r < 0 then
      ⟨[Event.send buffer r, Event.label (Label.text "Error during file transfer")],
        total_sent⟩
    else
      let total_sent1 := (total_sent + bytes_read) % SIZE_RANGE
      let progress := fdiv total_sent1 file_size
      let later := sendLoop file_size sendRet (rest.drop BUFFER_SIZE) total_sent1 (call + 1)
      ⟨Event.send buffer r :: Event.progress progress ::
          Event.label (Label.percent progress) :: later.trace,
        later.total_sent⟩
  else
    ⟨[Event.label (Label.text "Transfer Complete!")], total_sent⟩
termination_by rest.length
decreasing_by
  simp only [List.length_drop]
  have h : 0 < (List.take BUFFER_SIZE rest).length := by assumption
  simp only [List.length_take, BUFFER_SIZE] at h
  simp only [BUFFER_SIZE]
  omega

/-- The value of the variable `file_size` after `size_t file_size = ftell(fptr)`:
the `long` returned by `ftell`, converted to `size_t`. -/
def file_size (ftell_ret : Int) : Nat := (ftell_ret % (SIZE_RANGE : Int)).toNat

/-- The transfer part of `send_video`, for a source file that was opened: `ftell_ret` is
what `ftell` returns at the end of the file, `content` the bytes that `fread` delivers
afterwards. Store the size, send its 8 bytes, then run the chunk loop. -/
def send_video (ftell_ret : Int) (content : List Byte) (sendRet : Nat → Nat → Int) :
    SendResult :=
  let size := file_size ftell_ret
  let header := sizeBytes size
  let later := sendLoop size sendRet content 0 1
  ⟨Event.send header (sendRet 0 header.length) :: later.trace, later.total_sent⟩

/-! ## The receiver -/

/-- The result of one `recv` call. -/
inductive RecvResult where
  /-- The call stored `bs` in the buffer and returned `bs.length`
  (`0`, with nothing stored, when the peer has closed the connection). -/
  | data (bs : List Byte)
  /-- The call failed and returned `-1`. -/
  | failed
  deriving DecidableEq

/-- The value returned by the `recv` call. -/
def RecvResult.ret : RecvResult → Int
  | RecvResult.data bs => (bs.length : Int)
  | RecvResult.failed => -1

/-- The bytes the `recv` call stored at the start of the buffer. -/
def RecvResult.bytes : RecvResult → List Byte
  | RecvResult.data bs => bs
  | RecvResult.failed => []

/-- The value of `total_size` after `recv(client_socket, &total_size, 8, 0)`:
the variable starts at 0 and the call overwrites its first bytes with what arrived. -/
def headerValue (r : RecvResult) : Nat :=
  decodeLE (r.bytes.take 8)

/-- What the receive loop leaves behind. `returned` is false when the list of `recv`
results ran out before the loop was left: the pending `recv` call never returns. -/
structure LoopResult where
  trace : List Event
  received : Nat
  returned : Bool

/-- The `while (1)` loop of `receive_video`, on the results of the successive `recv` calls. -/
def recvLoop (total_size : Nat) : List RecvResult → Nat → LoopResult
  | [], received => ⟨[], received, false⟩
  | r :: rest, received =>
    let bytes_read := r.ret
    if bytes_read ≤ 0 then ⟨[], received, true⟩
    else
      let received1 := (received + bytes_read.toNat) % SIZE_RANGE
      let later := recvLoop total_size rest received1
      ⟨Event.fwrite r.bytes :: Event.progress (fdiv received1 total_size) :: later.trace,
        later.received, later.returned⟩

/-- What `receive_video` leaves behind. `returned` is false when a `recv` call never
returned, so that the function never got to its end. -/
structure RecvOutcome where
  trace : List Event
  received : Nat
  total_size : Nat
  returned : Bool

/-- The transfer part of `receive_video`, once a client is accepted and the target file is
open: one `recv` for the size, the chunk loop, then the final label.
The first element of the list is the result of the header `recv`. -/
def receive_video : List RecvResult → RecvOutcome
  | [] => ⟨[], 0, 0, false⟩
  | header :: rest =>
    let total_size := headerValue header
    let later := recvLoop total_size rest 0
    if later.returned then
      ⟨later.trace ++ [Event.label (Label.text "Transfer complete")],
        later.received, total_size, true⟩
    else
      ⟨later.trace, later.received, total_size, false⟩

/-! ## Reading a trace -/

/-- The buffers handed to `send`, in order. -/
def sentBuffers : List Event → List (List Byte)
  | [] => []
  | Event.send buf _ :: es => buf :: sentBuffers es
  | _ :: es => sentBuffers es

/-- The bytes each `send` call reported as taken by the socket: the first `ret` bytes of
the buffer, nothing when the call failed. -/
def acceptedBuffers : List Event → List (List Byte)
  | [] => []
  | Event.send buf ret :: es => buf.take ret.toNat :: acceptedBuffers es
  | _ :: es => acceptedBuffers es

/-- The bytes written to the target file, in order. -/
def fileContent : List Event → List Byte
  | [] => []
  | Event.fwrite bs :: es => bs ++ fileContent es
  | _ :: es => fileContent es

/-- The fractions handed to the progress bar, in order. -/
def progressValues : List Event → List Fraction
  | [] => []
  | Event.progress f :: es => f :: progressValues es
  | _ :: es => progressValues es

/-- The texts put in the status label, in order. -/
def labels : List Event → List Label
  | [] => []
  | Event.label l :: es => l :: labels es
  | _ :: es => labels es

/-- The number of payload bytes delivered by the `recv` results before the first
result that returns a value `<= 0`. -/
def deliveredBytes : List RecvResult → Nat
  | [] => 0
  | r :: rest => if r.ret ≤ 0 then 0 else r.ret.toNat + deliveredBytes rest


/-! ## The expected schedule -/

/-- The `i`-th chunk of a file (counting from 0): bytes `1024 * i` up to `1024 * (i + 1)`. -/
def chunkAt (content : List Byte) (i : Nat) : List Byte :=
  (content.drop (BUFFER_SIZE * i)).take BUFFER_SIZE

/-- The number of chunks of a file of `N` bytes. -/
def chunkCount (N : Nat) : Nat := ⌈(N : ℚ) / 1024⌉₊

/-- The fraction after `k` chunks of a file of `N` bytes. -/
def expectedFraction (N k : Nat) : Fraction :=
  Fraction.finite (((min (1024 * k) N : Nat) : ℚ) / (N : ℚ))

/-- The events of one iteration of the send loop, iteration `i` after a state in which
`ts` bytes were counted and `call` calls of `send` were made. -/
def sendIteration (fs : Nat) (ret : Nat → Nat → Int) (rest : List Byte) (ts call i : Nat) :
    List Event :=
  [Event.send (chunkAt rest i) (ret (call + i) (chunkAt rest i).length),
   Event.progress (fdiv ((ts + min (1024 * (i + 1)) rest.length) % SIZE_RANGE) fs),
   Event.label (Label.percent
     (fdiv ((ts + min (1024 * (i + 1)) rest.length) % SIZE_RANGE) fs))]

/-- A socket whose `send` call number 1 (the first chunk) takes 100 bytes only, and whose
other `send` calls take everything. -/
def shortFirstChunk : Nat → Nat → Int :=
  fun call len => if call = 1 then 100 else (len : Int)

/-! ## Facts about the header encoding -/

theorem length_encodeLE (k n : Nat) : (encodeLE k n).length = k := by
  induction k generalizing n with
  | zero => rfl
  | succ k ih => simp [encodeLE, ih]

theorem decodeLE_encodeLE (k n : Nat) : decodeLE (encodeLE k n) = n % 256 ^ k := by
  induction k generalizing n with
  | zero => simp [encodeLE, decodeLE, Nat.mod_one]
  | succ k ih =>
    simp only [encodeLE, decodeLE, ih]
    rw [pow_succ, Nat.mul_comm (256 ^ k) 256, Nat.mod_mul]

theorem length_sizeBytes (n : Nat) : (sizeBytes n).length = 8 := length_encodeLE 8 n

theorem decodeLE_sizeBytes (n : Nat) (h : n < SIZE_RANGE) : decodeLE (sizeBytes n) = n := by
  unfold sizeBytes
  rw [decodeLE_encodeLE]
  exact Nat.mod_eq_of_lt (by simpa [SIZE_RANGE] using h)

theorem headerValue_sizeBytes (n : Nat) (h : n < SIZE_RANGE) :
    headerValue (RecvResult.data (sizeBytes n)) = n := by
  unfold headerValue
  simp only [RecvResult.bytes]
  rw [List.take_of_length_le (by rw [length_sizeBytes]), decodeLE_sizeBytes n h]

/-! ## Facts about fractions -/

theorem fdiv_of_ne_zero (a : Nat) {b : Nat} (h : b ≠ 0) :
    fdiv a b = Fraction.finite ((a : ℚ) / (b : ℚ)) := by
  simp [fdiv, h]

theorem fdiv_le_fdiv {a b : Nat} (t : Nat) (ha : 0 < a) (hab : a ≤ b) :
    (fdiv a t).le (fdiv b t) := by
  by_cases ht : t = 0
  · have ha0 : a ≠ 0 := by omega
    have hb0 : b ≠ 0 := by omega
    simp [fdiv, ht, ha0, hb0, Fraction.le]
  · rw [fdiv_of_ne_zero a ht, fdiv_of_ne_zero b ht]
    show (a : ℚ) / t ≤ (b : ℚ) / t
    have : (0 : ℚ) < t := by exact_mod_cast Nat.pos_of_ne_zero ht
    gcongr

theorem fdiv_inUnit_iff {a : Nat} (t : Nat) (ha : 0 < a) : (fdiv a t).inUnit ↔ a ≤ t := by
  by_cases ht : t = 0
  · have ha0 : a ≠ 0 := by omega
    simp [fdiv, ht, ha0, Fraction.inUnit]
  · rw [fdiv_of_ne_zero a ht]
    have htq : (0 : ℚ) < t := by exact_mod_cast Nat.pos_of_ne_zero ht
    show (0 ≤ (a : ℚ) / t ∧ (a : ℚ) / t ≤ 1) ↔ a ≤ t
    rw [div_le_one htq]
    constructor
    · intro h; exact_mod_cast h.2
    · intro h; exact ⟨by positivity, by exact_mod_cast h⟩

theorem fdiv_eq_one_iff {a : Nat} (t : Nat) (ha : 0 < a) :
    fdiv a t = Fraction.finite 1 ↔ a = t := by
  by_cases ht : t = 0
  · have ha0 : a ≠ 0 := by omega
    simp [fdiv, ht, ha0]
  · rw [fdiv_of_ne_zero a ht]
    have htq : (t : ℚ) ≠ 0 := by exact_mod_cast ht
    constructor
    · intro h
      have h1 : (a : ℚ) / t = 1 := by injection h
      rw [div_eq_one_iff_eq htq] at h1
      exact_mod_cast h1
    · intro h
      subst h
      rw [div_self htq]

/-- Fractions of strictly increasing positive counts over one total increase. -/
theorem chain_fdiv_aux (t : Nat) (cs : List Nat) (c : Nat) (hc : 0 < c)
    (h : List.Chain (· < ·) c cs) :
    List.Chain Fraction.le (fdiv c t) (cs.map (fun x => fdiv x t)) := by
  induction cs generalizing c with
  | nil => exact List.Chain.nil
  | cons d ds ih =>
    rw [List.chain_cons] at h
    simp only [List.map_cons, List.chain_cons]
    exact ⟨fdiv_le_fdiv t hc (Nat.le_of_lt h.1), ih d (by omega) h.2⟩

theorem chain_fdiv (t : Nat) (cs : List Nat) (c : Nat) (h : List.Chain (· < ·) c cs) :
    List.Chain' Fraction.le (cs.map (fun x => fdiv x t)) := by
  cases cs with
  | nil => exact List.chain'_nil
  | cons d ds =>
    rw [List.chain_cons] at h
    exact chain_fdiv_aux t ds d (by omega) h.2


theorem chain_lt_mem (cs : List Nat) : ∀ a : Nat, List.Chain (· < ·) a cs →
    ∀ c ∈ cs, a < c := by
  induction cs with
  | nil => intro a _ c hc; simp at hc
  | cons d ds ih =>
    intro a h c hc
    rw [List.chain_cons] at h
    rcases List.mem_cons.mp hc with rfl | hc
    · exact h.1
    · exact lt_trans h.1 (ih d h.2 c hc)

/-! ## Reading a trace: concatenation -/

theorem sentBuffers_append (xs ys : List Event) :
    sentBuffers (xs ++ ys) = sentBuffers xs ++ sentBuffers ys := by
  induction xs with
  | nil => rfl
  | cons e es ih => cases e <;> simp [sentBuffers, ih]

theorem acceptedBuffers_append (xs ys : List Event) :
    acceptedBuffers (xs ++ ys) = acceptedBuffers xs ++ acceptedBuffers ys := by
  induction xs with
  | nil => rfl
  | cons e es ih => cases e <;> simp [acceptedBuffers, ih]

theorem fileContent_append (xs ys : List Event) :
    fileContent (xs ++ ys) = fileContent xs ++ fileContent ys := by
  induction xs with
  | nil => rfl
  | cons e es ih => cases e <;> simp [fileContent, ih]

theorem progressValues_append (xs ys : List Event) :
    progressValues (xs ++ ys) = progressValues xs ++ progressValues ys := by
  induction xs with
  | nil => rfl
  | cons e es ih => cases e <;> simp [progressValues, ih]

theorem labels_append (xs ys : List Event) :
    labels (xs ++ ys) = labels xs ++ labels ys := by
  induction xs with
  | nil => rfl
  | cons e es ih => cases e <;> simp [labels, ih]

/-! ## The send loop, one iteration at a time -/

theorem sendLoop_nil (fs : Nat) (ret : Nat → Nat → Int) (ts call : Nat) :
    sendLoop fs ret [] ts call = ⟨[Event.label (Label.text "Transfer Complete!")], ts⟩ := by
  rw [sendLoop]; simp

theorem take_length_pos {rest : List Byte} (h : rest ≠ []) :
    0 < (rest.take BUFFER_SIZE).length := by
  cases rest with
  | nil => exact absurd rfl h
  | cons b bs => simp [BUFFER_SIZE]

theorem sendLoop_step (fs : Nat) (ret : Nat → Nat → Int) (rest : List Byte) (ts call : Nat)
    (hne : rest ≠ []) (hr : 0 ≤ ret call (rest.take BUFFER_SIZE).length) :
    sendLoop fs ret rest ts call =
      ⟨Event.send (rest.take BUFFER_SIZE) (ret call (rest.take BUFFER_SIZE).length) ::
        Event.progress (fdiv ((ts + (rest.take BUFFER_SIZE).length) % SIZE_RANGE) fs) ::
        Event.label (Label.percent
          (fdiv ((ts + (rest.take BUFFER_SIZE).length) % SIZE_RANGE) fs)) ::
        (sendLoop fs ret (rest.drop BUFFER_SIZE)
          ((ts + (rest.take BUFFER_SIZE).length) % SIZE_RANGE) (call + 1)).trace,
       (sendLoop fs ret (rest.drop BUFFER_SIZE)
          ((ts + (rest.take BUFFER_SIZE).length) % SIZE_RANGE) (call + 1)).total_sent⟩ := by
  rw [sendLoop]
  have h1 := take_length_pos hne
  have h2 : ¬ ret call (rest.take BUFFER_SIZE).length < 0 := not_lt.mpr hr
  simp only [gt_iff_lt, h1, if_true, h2, if_false]

theorem sendLoop_fail (fs : Nat) (ret : Nat → Nat → Int) (rest : List Byte) (ts call : Nat)
    (hne : rest ≠ []) (hr : ret call (rest.take BUFFER_SIZE).length < 0) :
    sendLoop fs ret rest ts call =
      ⟨[Event.send (rest.take BUFFER_SIZE) (ret call (rest.take BUFFER_SIZE).length),
        Event.label (Label.text "Error during file transfer")], ts⟩ := by
  rw [sendLoop]
  have h1 := take_length_pos hne
  simp only [gt_iff_lt, h1, if_true, hr]

theorem chunkAt_zero (rest : List Byte) : chunkAt rest 0 = rest.take BUFFER_SIZE := by
  simp [chunkAt]

theorem chunkAt_succ (rest : List Byte) (i : Nat) :
    chunkAt rest (i + 1) = chunkAt (rest.drop BUFFER_SIZE) i := by
  simp only [chunkAt, List.drop_drop]
  congr 2
  ring

theorem length_chunkAt (content : List Byte) (i : Nat) :
    (chunkAt content i).length = min 1024 (content.length - 1024 * i) := by
  simp [chunkAt, BUFFER_SIZE]

theorem sendLoop_trace (fs : Nat) (ret : Nat → Nat → Int) (hret : ∀ c l, 0 ≤ ret c l) :
    ∀ (n : Nat) (rest : List Byte) (ts call : Nat), rest.length ≤ 1024 * n →
      ts < SIZE_RANGE →
      (sendLoop fs ret rest ts call).trace =
        (List.range ((rest.length + 1023) / 1024)).flatMap (sendIteration fs ret rest ts call)
          ++ [Event.label (Label.text "Transfer Complete!")]
      ∧ (sendLoop fs ret rest ts call).total_sent = (ts + rest.length) % SIZE_RANGE := by
  intro n
  induction n with
  | zero =>
    intro rest ts call hlen hts
    have : rest = [] := List.length_eq_zero.mp (by omega)
    subst this
    rw [sendLoop_nil]
    simp [Nat.mod_eq_of_lt hts]
  | succ n ih =>
    intro rest ts call hlen hts
    by_cases hne : rest = []
    · subst hne
      rw [sendLoop_nil]
      simp [Nat.mod_eq_of_lt hts]
    · rw [sendLoop_step fs ret rest ts call hne (hret _ _)]
      have hpos : 0 < rest.length := List.length_pos.mpr hne
      have hdrop : (rest.drop BUFFER_SIZE).length = rest.length - 1024 := by
        simp [BUFFER_SIZE]
      have htake : (rest.take BUFFER_SIZE).length = min 1024 rest.length := by
        simp [BUFFER_SIZE]
      have hts1 : (ts + (rest.take BUFFER_SIZE).length) % SIZE_RANGE < SIZE_RANGE :=
        Nat.mod_lt _ (by simp [SIZE_RANGE])
      obtain ⟨ih1, ih2⟩ := ih (rest.drop BUFFER_SIZE)
        ((ts + (rest.take BUFFER_SIZE).length) % SIZE_RANGE) (call + 1)
        (by rw [hdrop]; omega) hts1
      have hnum : (rest.length + 1023) / 1024 = (rest.length - 1024 + 1023) / 1024 + 1 := by
        omega
      constructor
      · show _ :: _ :: _ :: (sendLoop fs ret _ _ _).trace = _
        rw [ih1, hdrop, hnum, List.range_succ_eq_map, List.flatMap_cons, List.flatMap_map]
        have h0 : sendIteration fs ret rest ts call 0 =
            [Event.send (rest.take BUFFER_SIZE) (ret call (rest.take BUFFER_SIZE).length),
             Event.progress (fdiv ((ts + (rest.take BUFFER_SIZE).length) % SIZE_RANGE) fs),
             Event.label (Label.percent
               (fdiv ((ts + (rest.take BUFFER_SIZE).length) % SIZE_RANGE) fs))] := by
          simp only [sendIteration, chunkAt_zero, htake]
          simp
        have hs : (fun i => sendIteration fs ret rest ts call (Nat.succ i)) =
            sendIteration fs ret (rest.drop BUFFER_SIZE)
              ((ts + (rest.take BUFFER_SIZE).length) % SIZE_RANGE) (call + 1) := by
          funext i
          simp only [sendIteration, Nat.succ_eq_add_one, chunkAt_succ, hdrop, htake]
          have e1 : call + (i + 1) = call + 1 + i := by omega
          have e2 : (ts + min (1024 * (i + 1 + 1)) rest.length) % SIZE_RANGE =
              ((ts + min 1024 rest.length) % SIZE_RANGE +
                min (1024 * (i + 1)) (rest.length - 1024)) % SIZE_RANGE := by
            simp only [SIZE_RANGE]
            omega
          rw [e1, e2]
        rw [h0, hs]
        simp
      · show (sendLoop fs ret _ _ _).total_sent = _
        rw [ih2, hdrop, htake]
        simp only [SIZE_RANGE]
        omega


/-! ## Projections of the closed form of the send loop -/

theorem sentBuffers_iterations (fs : Nat) (ret : Nat → Nat → Int) (rest : List Byte)
    (ts call : Nat) (l : List Nat) :
    sentBuffers (l.flatMap (sendIteration fs ret rest ts call)) = l.map (chunkAt rest) := by
  induction l with
  | nil => rfl
  | cons i is ih =>
    rw [List.flatMap_cons, sentBuffers_append, ih]
    simp [sendIteration, sentBuffers]

theorem acceptedBuffers_iterations (fs : Nat) (ret : Nat → Nat → Int)
    (hfull : ∀ c l, ret c l = (l : Int)) (rest : List Byte) (ts call : Nat) (l : List Nat) :
    acceptedBuffers (l.flatMap (sendIteration fs ret rest ts call)) = l.map (chunkAt rest) := by
  induction l with
  | nil => rfl
  | cons i is ih =>
    rw [List.flatMap_cons, acceptedBuffers_append, ih]
    simp [sendIteration, acceptedBuffers, hfull]

theorem progressValues_iterations (fs : Nat) (ret : Nat → Nat → Int) (rest : List Byte)
    (ts call : Nat) (l : List Nat) :
    progressValues (l.flatMap (sendIteration fs ret rest ts call)) =
      l.map (fun i => fdiv ((ts + min (1024 * (i + 1)) rest.length) % SIZE_RANGE) fs) := by
  induction l with
  | nil => rfl
  | cons i is ih =>
    rw [List.flatMap_cons, progressValues_append, ih]
    simp [sendIteration, progressValues]

theorem labels_iterations (fs : Nat) (ret : Nat → Nat → Int) (rest : List Byte)
    (ts call : Nat) (l : List Nat) :
    labels (l.flatMap (sendIteration fs ret rest ts call)) =
      l.map (fun i => Label.percent
        (fdiv ((ts + min (1024 * (i + 1)) rest.length) % SIZE_RANGE) fs)) := by
  induction l with
  | nil => rfl
  | cons i is ih =>
    rw [List.flatMap_cons, labels_append, ih]
    simp [sendIteration, labels]

/-- The chunks of a file, put end to end, are the file. -/
theorem flatten_chunks : ∀ (n : Nat) (rest : List Byte), rest.length ≤ 1024 * n →
    ((List.range ((rest.length + 1023) / 1024)).map (chunkAt rest)).flatten = rest := by
  intro n
  induction n with
  | zero =>
    intro rest h
    have : rest = [] := List.length_eq_zero.mp (by omega)
    subst this
    simp
  | succ n ih =>
    intro rest h
    by_cases hne : rest = []
    · subst hne; simp
    · have hpos : 0 < rest.length := List.length_pos.mpr hne
      have hdrop : (rest.drop BUFFER_SIZE).length = rest.length - 1024 := by
        simp [BUFFER_SIZE]
      have hnum : (rest.length + 1023) / 1024 = (rest.length - 1024 + 1023) / 1024 + 1 := by
        omega
      have ih1 := ih (rest.drop BUFFER_SIZE) (by rw [hdrop]; omega)
      rw [hdrop] at ih1
      rw [hnum, List.range_succ_eq_map, List.map_cons, List.map_map, List.flatten_cons,
        chunkAt_zero]
      have hs : chunkAt rest ∘ Nat.succ = chunkAt (rest.drop BUFFER_SIZE) := by
        funext i
        simp only [Function.comp, Nat.succ_eq_add_one, chunkAt_succ]
      rw [hs, ih1, List.take_append_drop]

theorem ceil_div_buffer (N : Nat) : ⌈(N : ℚ) / 1024⌉₊ = (N + 1023) / 1024 := by
  apply le_antisymm
  · rw [Nat.ceil_le, div_le_iff₀ (by norm_num)]
    have : N ≤ (N + 1023) / 1024 * 1024 := by omega
    exact_mod_cast this
  · have h := Nat.le_ceil ((N : ℚ) / 1024)
    rw [div_le_iff₀ (by norm_num)] at h
    have h2 : N ≤ ⌈(N : ℚ) / 1024⌉₊ * 1024 := by exact_mod_cast h
    omega

/-- The progress values of the send loop, whatever `send` returns: fractions of strictly
increasing counts, none above the size of the part of the file that was left. -/
theorem sendLoop_progress (fs : Nat) (ret : Nat → Nat → Int) :
    ∀ (n : Nat) (rest : List Byte) (ts call : Nat), rest.length ≤ 1024 * n →
      ts + rest.length < SIZE_RANGE →
      ∃ cs : List Nat,
        progressValues (sendLoop fs ret rest ts call).trace = cs.map (fun c => fdiv c fs) ∧
        List.Chain (· < ·) ts cs ∧ ∀ c ∈ cs, c ≤ ts + rest.length := by
  intro n
  induction n with
  | zero =>
    intro rest ts call hlen _
    have : rest = [] := List.length_eq_zero.mp (by omega)
    subst this
    exact ⟨[], by rw [sendLoop_nil]; rfl, List.Chain.nil, by simp⟩
  | succ n ih =>
    intro rest ts call hlen hts
    by_cases hne : rest = []
    · subst hne
      exact ⟨[], by rw [sendLoop_nil]; rfl, List.Chain.nil, by simp⟩
    · by_cases hr : ret call (rest.take BUFFER_SIZE).length < 0
      · exact ⟨[], by rw [sendLoop_fail fs ret rest ts call hne hr]; rfl,
          List.Chain.nil, by simp⟩
      · rw [sendLoop_step fs ret rest ts call hne (not_lt.mp hr)]
        have hpos : 0 < rest.length := List.length_pos.mpr hne
        have hdrop : (rest.drop BUFFER_SIZE).length = rest.length - 1024 := by
          simp [BUFFER_SIZE]
        have htake : (rest.take BUFFER_SIZE).length = min 1024 rest.length := by
          simp [BUFFER_SIZE]
        have hmod : (ts + (rest.take BUFFER_SIZE).length) % SIZE_RANGE =
            ts + min 1024 rest.length := by
          rw [htake]
          apply Nat.mod_eq_of_lt
          omega
        rw [hmod]
        obtain ⟨cs, h1, h2, h3⟩ := ih (rest.drop BUFFER_SIZE) (ts + min 1024 rest.length)
          (call + 1) (by rw [hdrop]; omega) (by rw [hdrop]; omega)
        refine ⟨(ts + min 1024 rest.length) :: cs, ?_, ?_, ?_⟩
        · simp [progressValues, h1]
        · exact List.Chain.cons (by omega) h2
        · intro c hc
          rcases List.mem_cons.mp hc with rfl | hc
          · omega
          · have := h3 c hc
            rw [hdrop] at this
            omega


/-- The counts behind the progress values of the send loop, and the final `total_sent`:
the final count is the last count reported, or the initial one when nothing was reported,
and it never exceeds the bytes the file delivers. -/
theorem sendLoop_counts (fs : Nat) (ret : Nat → Nat → Int) :
    ∀ (n : Nat) (rest : List Byte) (ts call : Nat), rest.length ≤ 1024 * n →
      ts + rest.length < SIZE_RANGE →
      ∃ cs : List Nat,
        progressValues (sendLoop fs ret rest ts call).trace = cs.map (fun c => fdiv c fs) ∧
        List.Chain (· < ·) ts cs ∧
        (∀ c ∈ cs, c ≤ (sendLoop fs ret rest ts call).total_sent) ∧
        ts ≤ (sendLoop fs ret rest ts call).total_sent ∧
        (sendLoop fs ret rest ts call).total_sent ≤ ts + rest.length ∧
        ((cs = [] ∧ (sendLoop fs ret rest ts call).total_sent = ts) ∨
          (sendLoop fs ret rest ts call).total_sent ∈ cs) := by
  intro n
  induction n with
  | zero =>
    intro rest ts call hlen _
    have : rest = [] := List.length_eq_zero.mp (by omega)
    subst this
    rw [sendLoop_nil]
    exact ⟨[], rfl, List.Chain.nil, by simp, le_refl _, by simp, Or.inl ⟨rfl, rfl⟩⟩
  | succ n ih =>
    intro rest ts call hlen hts
    by_cases hne : rest = []
    · subst hne
      rw [sendLoop_nil]
      exact ⟨[], rfl, List.Chain.nil, by simp, le_refl _, by simp, Or.inl ⟨rfl, rfl⟩⟩
    · by_cases hr : ret call (rest.take BUFFER_SIZE).length < 0
      · rw [sendLoop_fail fs ret rest ts call hne hr]
        exact ⟨[], rfl, List.Chain.nil, by simp, le_refl _, by simp, Or.inl ⟨rfl, rfl⟩⟩
      · rw [sendLoop_step fs ret rest ts call hne (not_lt.mp hr)]
        have hpos : 0 < rest.length := List.length_pos.mpr hne
        have hdrop : (rest.drop BUFFER_SIZE).length = rest.length - 1024 := by
          simp [BUFFER_SIZE]
        have htake : (rest.take BUFFER_SIZE).length = min 1024 rest.length := by
          simp [BUFFER_SIZE]
        have hmod : (ts + (rest.take BUFFER_SIZE).length) % SIZE_RANGE =
            ts + min 1024 rest.length := by
          rw [htake]
          apply Nat.mod_eq_of_lt
          omega
        rw [hmod]
        obtain ⟨cs, h1, h2, h3, h4, h5, h6⟩ := ih (rest.drop BUFFER_SIZE)
          (ts + min 1024 rest.length) (call + 1) (by rw [hdrop]; omega) (by rw [hdrop]; omega)
        rw [hdrop] at h5
        refine ⟨(ts + min 1024 rest.length) :: cs, ?_, ?_, ?_, ?_, ?_, Or.inr ?_⟩
        · simp [progressValues, h1]
        · exact List.Chain.cons (by omega) h2
        · intro c hc
          rcases List.mem_cons.mp hc with rfl | hc
          · exact h4
          · exact h3 c hc
        · show ts ≤ (sendLoop fs ret _ _ _).total_sent
          omega
        · show (sendLoop fs ret _ _ _).total_sent ≤ _
          omega
        · show (sendLoop fs ret _ _ _).total_sent ∈ _
          rcases h6 with ⟨_, h6⟩ | h6
          · rw [h6]; exact List.mem_cons_self _ _
          · exact List.mem_cons_of_mem _ h6

/-! ## The receive loop -/

theorem ret_data_pos {p : List Byte} (h : p ≠ []) : ¬ (RecvResult.data p).ret ≤ 0 := by
  have : 0 < p.length := List.length_pos.mpr h
  simp only [RecvResult.ret]
  omega

theorem recvLoop_stop (total : Nat) (t : RecvResult) (more : List RecvResult) (received : Nat)
    (ht : t.ret ≤ 0) : recvLoop total (t :: more) received = ⟨[], received, true⟩ := by
  simp [recvLoop, ht]

theorem recvLoop_data (total : Nat) (p : List Byte) (rest : List RecvResult) (received : Nat)
    (hp : p ≠ []) :
    recvLoop total (RecvResult.data p :: rest) received =
      ⟨Event.fwrite p :: Event.progress (fdiv ((received + p.length) % SIZE_RANGE) total) ::
        (recvLoop total rest ((received + p.length) % SIZE_RANGE)).trace,
       (recvLoop total rest ((received + p.length) % SIZE_RANGE)).received,
       (recvLoop total rest ((received + p.length) % SIZE_RANGE)).returned⟩ := by
  have h := ret_data_pos hp
  simp only [recvLoop, h, if_false, RecvResult.bytes]
  rfl

/-- The receive loop on non-empty chunks followed by a `recv` result that is `<= 0`:
the loop is left, and the file holds the chunks in order. -/
theorem recvLoop_pieces (total : Nat) (t : RecvResult) (more : List RecvResult)
    (ht : t.ret ≤ 0) :
    ∀ (pieces : List (List Byte)) (received : Nat), (∀ p ∈ pieces, p ≠ []) →
      (recvLoop total (pieces.map RecvResult.data ++ t :: more) received).returned = true ∧
      fileContent (recvLoop total (pieces.map RecvResult.data ++ t :: more) received).trace
        = pieces.flatten ∧
      labels (recvLoop total (pieces.map RecvResult.data ++ t :: more) received).trace = [] := by
  intro pieces
  induction pieces with
  | nil =>
    intro received _
    simp [recvLoop_stop total t more received ht, fileContent, labels]
  | cons p ps ih =>
    intro received hps
    have hp : p ≠ [] := hps p (List.mem_cons_self p ps)
    obtain ⟨h1, h2, h3⟩ := ih ((received + p.length) % SIZE_RANGE)
      (fun q hq => hps q (List.mem_cons_of_mem p hq))
    rw [List.map_cons, List.cons_append, recvLoop_data total p _ received hp]
    exact ⟨h1, by simp [fileContent, h2], by simp [labels, h3]⟩

/-- A `recv` result that is `<= 0` ends the loop in the same way whether it is 0 or negative. -/
theorem recvLoop_end_irrelevant (total : Nat) (t u : RecvResult) (ht : t.ret ≤ 0)
    (hu : u.ret ≤ 0) (pieces : List (List Byte)) :
    ∀ received : Nat,
      recvLoop total (pieces.map RecvResult.data ++ [t]) received =
        recvLoop total (pieces.map RecvResult.data ++ [u]) received := by
  induction pieces with
  | nil =>
    intro received
    simp [recvLoop_stop total t [] received ht, recvLoop_stop total u [] received hu]
  | cons p ps ih =>
    intro received
    by_cases hp : p = []
    · subst hp
      have h0 : (RecvResult.data ([] : List Byte)).ret ≤ 0 := by simp [RecvResult.ret]
      simp only [List.map_cons, List.cons_append]
      rw [recvLoop_stop total _ _ received h0, recvLoop_stop total _ _ received h0]
    · simp only [List.map_cons, List.cons_append]
      rw [recvLoop_data total p _ received hp, recvLoop_data total p _ received hp, ih]

/-- The progress values of the receive loop, for any list of `recv` results: fractions of
strictly increasing counts; the final count is the number of bytes delivered, and it is the
count of one of the progress values as soon as a byte was delivered. -/
theorem recvLoop_progress (total : Nat) :
    ∀ (script : List RecvResult) (received : Nat),
      received + deliveredBytes script < SIZE_RANGE →
      ∃ cs : List Nat,
        progressValues (recvLoop total script received).trace = cs.map (fun c => fdiv c total) ∧
        List.Chain (· < ·) received cs ∧
        (∀ c ∈ cs, c ≤ received + deliveredBytes script) ∧
        (recvLoop total script received).received = received + deliveredBytes script ∧
        (deliveredBytes script = 0 ∨ received + deliveredBytes script ∈ cs) := by
  intro script
  induction script with
  | nil =>
    intro received _
    exact ⟨[], rfl, List.Chain.nil, by simp, by simp [recvLoop, deliveredBytes],
      Or.inl rfl⟩
  | cons r rest ih =>
    intro received hlt
    by_cases hr : r.ret ≤ 0
    · refine ⟨[], ?_, List.Chain.nil, by simp, ?_, Or.inl ?_⟩
      · rw [recvLoop_stop total r rest received hr]; rfl
      · rw [recvLoop_stop total r rest received hr]; simp [deliveredBytes, hr]
      · simp [deliveredBytes, hr]
    · have hd : deliveredBytes (r :: rest) = r.ret.toNat + deliveredBytes rest := by
        simp [deliveredBytes, hr]
      have hpos : 0 < r.ret.toNat := by omega
      rw [hd] at hlt ⊢
      have hmod : (received + r.ret.toNat) % SIZE_RANGE = received + r.ret.toNat :=
        Nat.mod_eq_of_lt (by omega)
      obtain ⟨cs, h1, h2, h3, h4, h5⟩ := ih (received + r.ret.toNat) (by omega)
      have hstep : recvLoop total (r :: rest) received =
          ⟨Event.fwrite r.bytes :: Event.progress (fdiv (received + r.ret.toNat) total) ::
            (recvLoop total rest (received + r.ret.toNat)).trace,
           (recvLoop total rest (received + r.ret.toNat)).received,
           (recvLoop total rest (received + r.ret.toNat)).returned⟩ := by
        simp only [recvLoop, hr, if_false, hmod]
      rw [hstep]
      refine ⟨(received + r.ret.toNat) :: cs, ?_, ?_, ?_, ?_, Or.inr ?_⟩
      · simp [progressValues, h1]
      · exact List.Chain.cons (by omega) h2
      · intro c hc
        rcases List.mem_cons.mp hc with rfl | hc
        · omega
        · have := h3 c hc
          omega
      · show (recvLoop total rest (received + r.ret.toNat)).received = _
        rw [h4]; omega
      · rcases h5 with h5 | h5
        · rw [h5]; simp
        · rw [List.mem_cons]; right
          have e : received + (r.ret.toNat + deliveredBytes rest) =
              received + r.ret.toNat + deliveredBytes rest := by omega
          rw [e]; exact h5

theorem deliveredBytes_pieces (t : RecvResult) (ht : t.ret ≤ 0) :
    ∀ pieces : List (List Byte), (∀ p ∈ pieces, p ≠ []) →
      deliveredBytes (pieces.map RecvResult.data ++ [t]) = pieces.flatten.length := by
  intro pieces
  induction pieces with
  | nil => intro _; simp [deliveredBytes, ht]
  | cons p ps ih =>
    intro hps
    have hp : p ≠ [] := hps p (List.mem_cons_self p ps)
    have := ih (fun q hq => hps q (List.mem_cons_of_mem p hq))
    have hret := ret_data_pos hp
    have hstep : deliveredBytes (RecvResult.data p :: (ps.map RecvResult.data ++ [t])) =
        (RecvResult.data p).ret.toNat + deliveredBytes (ps.map RecvResult.data ++ [t]) := by
      simp only [deliveredBytes, hret, if_false]
    rw [List.map_cons, List.cons_append, hstep, this, List.flatten_cons, List.length_append]
    simp only [RecvResult.ret, Int.toNat_ofNat]

/-- After at least one chunk, the last event of the receive loop is the progress value
computed from the final count. -/
theorem recvLoop_last (total : Nat) (t : RecvResult) (ht : t.ret ≤ 0) :
    ∀ (pieces : List (List Byte)) (received : Nat), pieces ≠ [] → (∀ p ∈ pieces, p ≠ []) →
      ∃ evs : List Event,
        (recvLoop total (pieces.map RecvResult.data ++ [t]) received).trace =
          evs ++ [Event.progress
            (fdiv (recvLoop total (pieces.map RecvResult.data ++ [t]) received).received
              total)] := by
  intro pieces
  induction pieces with
  | nil => intro _ h _; exact absurd rfl h
  | cons p ps ih =>
    intro received _ hps
    have hp : p ≠ [] := hps p (List.mem_cons_self p ps)
    rw [List.map_cons, List.cons_append, recvLoop_data total p _ received hp]
    by_cases hnil : ps = []
    · subst hnil
      refine ⟨[Event.fwrite p], ?_⟩
      simp [recvLoop_stop total t [] _ ht]
    · obtain ⟨evs, he⟩ := ih ((received + p.length) % SIZE_RANGE) hnil
        (fun q hq => hps q (List.mem_cons_of_mem p hq))
      refine ⟨Event.fwrite p ::
        Event.progress (fdiv ((received + p.length) % SIZE_RANGE) total) :: evs, ?_⟩
      show _ :: _ :: (recvLoop total _ _).trace = _
      rw [he]
      rfl


theorem chunkCount_eq (N : Nat) : chunkCount N = (N + 1023) / 1024 := ceil_div_buffer N

/-- The receive loop fed with the chunks of a file. -/
theorem recvLoop_chunks (total : Nat) :
    ∀ (n : Nat) (rest : List Byte) (received : Nat), rest.length ≤ 1024 * n →
      progressValues (recvLoop total
        ((List.range ((rest.length + 1023) / 1024)).map (fun i => RecvResult.data (chunkAt rest i))
          ++ [RecvResult.data []]) received).trace =
      (List.range ((rest.length + 1023) / 1024)).map
        (fun i => fdiv ((received + min (1024 * (i + 1)) rest.length) % SIZE_RANGE) total) := by
  intro n
  induction n with
  | zero =>
    intro rest received hlen
    have : rest = [] := List.length_eq_zero.mp (by omega)
    subst this
    simp [recvLoop, RecvResult.ret, progressValues]
  | succ n ih =>
    intro rest received hlen
    by_cases hne : rest = []
    · subst hne
      simp [recvLoop, RecvResult.ret, progressValues]
    · have hpos : 0 < rest.length := List.length_pos.mpr hne
      have hdrop : (rest.drop BUFFER_SIZE).length = rest.length - 1024 := by
        simp [BUFFER_SIZE]
      have htake : (rest.take BUFFER_SIZE).length = min 1024 rest.length := by
        simp [BUFFER_SIZE]
      have hnum : (rest.length + 1023) / 1024 = (rest.length - 1024 + 1023) / 1024 + 1 := by
        omega
      have hne0 : rest.take BUFFER_SIZE ≠ [] := by
        intro h
        have := take_length_pos hne
        rw [h] at this
        exact absurd this (by simp)
      have ih1 := ih (rest.drop BUFFER_SIZE) ((received + min 1024 rest.length) % SIZE_RANGE)
        (by rw [hdrop]; omega)
      rw [hdrop] at ih1
      rw [hnum, List.range_succ_eq_map, List.map_cons, List.map_map, List.cons_append,
        chunkAt_zero, recvLoop_data total _ _ received hne0, htake]
      have hs : (fun i => RecvResult.data (chunkAt rest i)) ∘ Nat.succ =
          fun i => RecvResult.data (chunkAt (rest.drop BUFFER_SIZE) i) := by
        funext i
        simp only [Function.comp, Nat.succ_eq_add_one, chunkAt_succ]
      rw [hs]
      simp only [progressValues, ih1, List.map_cons, List.map_map]
      have e0 : 1024 * (0 + 1) = 1024 := by norm_num
      rw [e0]
      refine congrArg _ ?_
      apply List.map_congr_left
      intro i _
      simp only [Function.comp, Nat.succ_eq_add_one]
      refine congrArg (fun x => fdiv x total) ?_
      simp only [SIZE_RANGE]
      omega


/-! ## The sender when no `send` call fails -/

theorem file_size_length (n : Nat) (h : n < SIZE_RANGE) : file_size (n : Int) = n := by
  simp only [file_size, SIZE_RANGE] at *
  omega

theorem send_video_trace (ftell_ret : Int) (content : List Byte) (sendRet : Nat → Nat → Int)
    (hret : ∀ c l, 0 ≤ sendRet c l) :
    (send_video ftell_ret content sendRet).trace =
      Event.send (sizeBytes (file_size ftell_ret)) (sendRet 0 8) ::
        ((List.range ((content.length + 1023) / 1024)).flatMap
            (sendIteration (file_size ftell_ret) sendRet content 0 1)
          ++ [Event.label (Label.text "Transfer Complete!")]) ∧
    (send_video ftell_ret content sendRet).total_sent = content.length % SIZE_RANGE := by
  obtain ⟨h1, h2⟩ := sendLoop_trace (file_size ftell_ret) sendRet hret
    content.length content 0 1 (by omega) (by simp [SIZE_RANGE])
  constructor
  · show Event.send _ _ :: (sendLoop _ _ _ _ _).trace = _
    rw [h1, length_sizeBytes]
  · show (sendLoop _ _ _ _ _).total_sent = _
    rw [h2, Nat.zero_add]

theorem sentBuffers_send_video (ftell_ret : Int) (content : List Byte)
    (sendRet : Nat → Nat → Int) (hret : ∀ c l, 0 ≤ sendRet c l) :
    sentBuffers (send_video ftell_ret content sendRet).trace =
      sizeBytes (file_size ftell_ret) ::
        (List.range ((content.length + 1023) / 1024)).map (chunkAt content) := by
  rw [(send_video_trace ftell_ret content sendRet hret).1]
  simp [sentBuffers, sentBuffers_append, sentBuffers_iterations]

theorem acceptedBuffers_send_video (ftell_ret : Int) (content : List Byte)
    (sendRet : Nat → Nat → Int) (hfull : ∀ c l, sendRet c l = (l : Int)) :
    acceptedBuffers (send_video ftell_ret content sendRet).trace =
      sizeBytes (file_size ftell_ret) ::
        (List.range ((content.length + 1023) / 1024)).map (chunkAt content) := by
  have hret : ∀ c l, 0 ≤ sendRet c l := by intro c l; rw [hfull]; exact Int.natCast_nonneg l
  rw [(send_video_trace ftell_ret content sendRet hret).1]
  have h8 : (sizeBytes (file_size ftell_ret)).take 8 = sizeBytes (file_size ftell_ret) :=
    List.take_of_length_le (by rw [length_sizeBytes])
  simp [acceptedBuffers, acceptedBuffers_append, acceptedBuffers_iterations, hfull, h8]

theorem progressValues_send_video (content : List Byte) (sendRet : Nat → Nat → Int)
    (hret : ∀ c l, 0 ≤ sendRet c l) (hN : content.length < SIZE_RANGE) :
    progressValues (send_video (content.length : Int) content sendRet).trace =
      (List.range (chunkCount content.length)).map
        (fun i => expectedFraction content.length (i + 1)) := by
  rw [(send_video_trace (content.length : Int) content sendRet hret).1, chunkCount_eq,
    file_size_length _ hN]
  simp only [progressValues, progressValues_append, progressValues_iterations,
    List.append_nil, Nat.zero_add]
  apply List.map_congr_left
  intro i hi
  have hpos : content.length ≠ 0 := by
    intro h0
    rw [h0] at hi
    simp at hi
  have hlt : min (1024 * (i + 1)) content.length < SIZE_RANGE :=
    lt_of_le_of_lt (Nat.min_le_right _ _) hN
  rw [Nat.mod_eq_of_lt hlt, fdiv_of_ne_zero _ hpos]
  rfl


/-! ## The claims -/

/-- C1. End-to-end round trip: when every `send` of `send_video` succeeds in full and the
bytes the socket took (the 8-byte size, then the payload) reach `receive_video` in order,
the header `recv` returning the 8 header bytes and each later `recv` a non-empty piece of at
most 1024 bytes until a final 0, then `receive_video` gets to its end and the bytes it wrote
to the target file are the source file, with the same length. This holds whatever size
`ftell` reported: the receiver does not use the header value to write the file. -/
theorem roundtrip_send_receive (ftell_ret : Int) (content : List Byte) (sendRet : Nat → Nat → Int)
    (header : List Byte) (pieces : List (List Byte))
    (hfull : ∀ call len, sendRet call len = (len : Int))
    (hheader : header.length = 8)
    (hpieces : ∀ p ∈ pieces, p ≠ [] ∧ p.length ≤ BUFFER_SIZE)
    (hstream : header ++ pieces.flatten =
      (acceptedBuffers (send_video ftell_ret content sendRet).trace).flatten) :
    (receive_video (RecvResult.data header ::
      (pieces.map RecvResult.data ++ [RecvResult.data []]))).returned = true ∧
    fileContent (receive_video (RecvResult.data header ::
      (pieces.map RecvResult.data ++ [RecvResult.data []]))).trace = content ∧
    (fileContent (receive_video (RecvResult.data header ::
      (pieces.map RecvResult.data ++ [RecvResult.data []]))).trace).length = content.length := by
  have hpayload : pieces.flatten = content := by
    rw [acceptedBuffers_send_video ftell_ret content sendRet hfull, List.flatten_cons,
      flatten_chunks content.length content (by omega)] at hstream
    have hlen : header.length = (sizeBytes (file_size ftell_ret)).length := by
      rw [hheader, length_sizeBytes]
    exact (List.append_inj hstream hlen).2
  have h0 : (RecvResult.data ([] : List Byte)).ret ≤ 0 := by simp [RecvResult.ret]
  obtain ⟨h1, h2, _⟩ := recvLoop_pieces (headerValue (RecvResult.data header))
    (RecvResult.data []) [] h0 pieces 0 (fun p hp => (hpieces p hp).1)
  have hfile : fileContent (receive_video (RecvResult.data header ::
      (pieces.map RecvResult.data ++ [RecvResult.data []]))).trace = content := by
    simp only [receive_video, h1, if_true, fileContent_append, h2, hpayload]
    simp [fileContent]
  refine ⟨?_, hfile, by rw [hfile]⟩
  simp only [receive_video, h1, if_true]

/-- C1, at a file of three bytes received in two pieces. -/
theorem roundtrip_send_receive_witness :
    (receive_video (RecvResult.data (sizeBytes 3) ::
      ([[1, 2], [3]].map RecvResult.data ++ [RecvResult.data []]))).returned = true ∧
    fileContent (receive_video (RecvResult.data (sizeBytes 3) ::
      ([[1, 2], [3]].map RecvResult.data ++ [RecvResult.data []]))).trace = [1, 2, 3] ∧
    (fileContent (receive_video (RecvResult.data (sizeBytes 3) ::
      ([[1, 2], [3]].map RecvResult.data ++ [RecvResult.data []]))).trace).length = 3 :=
  roundtrip_send_receive 3 [1, 2, 3] (fun _ len => (len : Int)) (sizeBytes 3) [[1, 2], [3]]
    (fun _ _ => rfl) (by decide) (by decide)
    (by simp [send_video, sendLoop, acceptedBuffers, file_size, BUFFER_SIZE, SIZE_RANGE])

/-- C2. Sender wire format: for a file of `N` bytes, the size `ftell` reports, when every
`send` succeeds in full, the buffers `send_video`
hands to the socket are, in this order, the 8 bytes holding the file size `N` as an unsigned
64-bit value, first event of all, then the chunks of the file, each of at most 1024 bytes,
whose concatenation is the file: exactly `N` payload bytes after the header, nothing else,
and the socket takes them all. -/
theorem sender_wire_format (content : List Byte) (sendRet : Nat → Nat → Int)
    (hN : content.length < SIZE_RANGE)
    (hfull : ∀ call len, sendRet call len = (len : Int)) :
    sentBuffers (send_video (content.length : Int) content sendRet).trace =
      sizeBytes content.length ::
        (List.range (chunkCount content.length)).map (chunkAt content) ∧
    (send_video (content.length : Int) content sendRet).trace.head? = some (Event.send (sizeBytes content.length) 8) ∧
    (sizeBytes content.length).length = 8 ∧
    decodeLE (sizeBytes content.length) = content.length ∧
    (∀ c ∈ (sentBuffers (send_video (content.length : Int) content sendRet).trace).tail, c.length ≤ 1024) ∧
    (sentBuffers (send_video (content.length : Int) content sendRet).trace).tail.flatten = content ∧
    (sentBuffers (send_video (content.length : Int) content sendRet).trace).tail.flatten.length = content.length ∧
    acceptedBuffers (send_video (content.length : Int) content sendRet).trace =
      sentBuffers (send_video (content.length : Int) content sendRet).trace := by
  have hret : ∀ c l, 0 ≤ sendRet c l := by intro c l; rw [hfull]; exact Int.natCast_nonneg l
  have hs := sentBuffers_send_video (content.length : Int) content sendRet hret
  have ha := acceptedBuffers_send_video (content.length : Int) content sendRet hfull
  rw [file_size_length _ hN] at hs ha
  have hflat := flatten_chunks content.length content (by omega)
  refine ⟨by rw [hs, chunkCount_eq], ?_, length_sizeBytes _, decodeLE_sizeBytes _ hN, ?_, ?_, ?_,
    by rw [hs, ha]⟩
  · rw [(send_video_trace (content.length : Int) content sendRet hret).1, file_size_length _ hN,
      hfull]
    rfl
  · rw [hs]
    intro c hc
    simp only [List.tail_cons, List.mem_map] at hc
    obtain ⟨i, _, rfl⟩ := hc
    rw [length_chunkAt]
    omega
  · rw [hs, List.tail_cons, hflat]
  · rw [hs, List.tail_cons, hflat]

/-- C2, at a file of three bytes. -/
theorem sender_wire_format_witness :
    sentBuffers (send_video 3 [1, 2, 3] (fun _ len => (len : Int))).trace =
      sizeBytes 3 :: (List.range (chunkCount 3)).map (chunkAt [1, 2, 3]) ∧
    (send_video 3 [1, 2, 3] (fun _ len => (len : Int))).trace.head? =
      some (Event.send (sizeBytes 3) 8) ∧
    (sizeBytes 3).length = 8 ∧
    decodeLE (sizeBytes 3) = 3 ∧
    (∀ c ∈ (sentBuffers (send_video 3 [1, 2, 3] (fun _ len => (len : Int))).trace).tail,
      c.length ≤ 1024) ∧
    (sentBuffers (send_video 3 [1, 2, 3] (fun _ len => (len : Int))).trace).tail.flatten
      = [1, 2, 3] ∧
    (sentBuffers (send_video 3 [1, 2, 3] (fun _ len => (len : Int))).trace).tail.flatten.length
      = 3 ∧
    acceptedBuffers (send_video 3 [1, 2, 3] (fun _ len => (len : Int))).trace =
      sentBuffers (send_video 3 [1, 2, 3] (fun _ len => (len : Int))).trace :=
  sender_wire_format [1, 2, 3] (fun _ len => (len : Int)) (by decide) (fun _ _ => rfl)


theorem progressValues_receive_video (header : RecvResult) (rest : List RecvResult) :
    progressValues (receive_video (header :: rest)).trace =
      progressValues (recvLoop (headerValue header) rest 0).trace := by
  simp only [receive_video]
  split <;> simp [progressValues_append, progressValues]

theorem fileContent_receive_video (header : RecvResult) (rest : List RecvResult) :
    fileContent (receive_video (header :: rest)).trace =
      fileContent (recvLoop (headerValue header) rest 0).trace := by
  simp only [receive_video]
  split <;> simp [fileContent_append, fileContent]

theorem returned_receive_video (header : RecvResult) (rest : List RecvResult) :
    (receive_video (header :: rest)).returned =
      (recvLoop (headerValue header) rest 0).returned := by
  simp only [receive_video]
  split <;> simp_all

theorem labels_receive_video (header : RecvResult) (rest : List RecvResult)
    (h : (recvLoop (headerValue header) rest 0).returned = true) :
    labels (receive_video (header :: rest)).trace =
      labels (recvLoop (headerValue header) rest 0).trace ++
        [Label.text "Transfer complete"] := by
  simp only [receive_video, h, if_true, labels_append, labels]

/-- C3. Chunk schedule and progress values: for a file of `N` bytes, the size `ftell`
reports, when no `send` fails,
`send_video` sends the header and then does `ceil(N / 1024)` times the same three things:
send the next chunk, chunk `k` having `min(1024, N - 1024 * (k - 1))` bytes, hand the fraction
`min(1024 * k, N) / N` to the progress bar, and print it in the label; then it sets the final
label. A `receive_video` whose `recv` calls return the header and these chunks reports the
same fractions, one per chunk. For `N = 2500` the chunks have 1024, 1024 and 452 bytes and
the fractions are 1024/2500, 2048/2500 and 1. -/
theorem chunk_schedule (content : List Byte) (sendRet : Nat → Nat → Int)
    (hN : content.length < SIZE_RANGE) (hret : ∀ call len, 0 ≤ sendRet call len) :
    (send_video (content.length : Int) content sendRet).trace =
      Event.send (sizeBytes content.length) (sendRet 0 8) ::
        ((List.range (chunkCount content.length)).flatMap (fun i =>
            [Event.send (chunkAt content i) (sendRet (i + 1) (chunkAt content i).length),
             Event.progress (expectedFraction content.length (i + 1)),
             Event.label (Label.percent (expectedFraction content.length (i + 1)))])
          ++ [Event.label (Label.text "Transfer Complete!")]) ∧
    (sentBuffers (send_video (content.length : Int) content sendRet).trace).tail =
      (List.range (chunkCount content.length)).map (chunkAt content) ∧
    (∀ i, (chunkAt content i).length = min 1024 (content.length - 1024 * i)) ∧
    progressValues (send_video (content.length : Int) content sendRet).trace =
      (List.range (chunkCount content.length)).map
        (fun i => expectedFraction content.length (i + 1)) ∧
    progressValues (receive_video (RecvResult.data (sizeBytes content.length) ::
        ((List.range (chunkCount content.length)).map (fun i => RecvResult.data (chunkAt content i))
          ++ [RecvResult.data []]))).trace =
      (List.range (chunkCount content.length)).map
        (fun i => expectedFraction content.length (i + 1)) ∧
    (content.length = 0 →
      sentBuffers (send_video (content.length : Int) content sendRet).trace = [sizeBytes 0] ∧
      progressValues (send_video (content.length : Int) content sendRet).trace = []) ∧
    (content.length = 2500 →
      (sentBuffers (send_video (content.length : Int) content sendRet).trace).tail.map List.length = [1024, 1024, 452] ∧
      progressValues (send_video (content.length : Int) content sendRet).trace =
        [Fraction.finite (1024 / 2500), Fraction.finite (2048 / 2500), Fraction.finite 1] ∧
      progressValues (receive_video (RecvResult.data (sizeBytes content.length) ::
        ((List.range (chunkCount content.length)).map (fun i => RecvResult.data (chunkAt content i))
          ++ [RecvResult.data []]))).trace =
        [Fraction.finite (1024 / 2500), Fraction.finite (2048 / 2500), Fraction.finite 1]) := by
  have htr := (send_video_trace (content.length : Int) content sendRet hret).1
  have hsb := sentBuffers_send_video (content.length : Int) content sendRet hret
  have hpv := progressValues_send_video content sendRet hret hN
  rw [file_size_length _ hN] at htr hsb
  have hfrac : ∀ i ∈ List.range (chunkCount content.length),
      fdiv ((0 + min (1024 * (i + 1)) content.length) % SIZE_RANGE) content.length =
        expectedFraction content.length (i + 1) := by
    intro i hi
    have hpos : content.length ≠ 0 := by
      intro h0
      rw [chunkCount_eq, h0] at hi
      simp at hi
    have hlt : min (1024 * (i + 1)) content.length < SIZE_RANGE :=
      lt_of_le_of_lt (Nat.min_le_right _ _) hN
    rw [Nat.zero_add, Nat.mod_eq_of_lt hlt, fdiv_of_ne_zero _ hpos]
    rfl
  have hrecv : progressValues (receive_video (RecvResult.data (sizeBytes content.length) ::
        ((List.range (chunkCount content.length)).map (fun i => RecvResult.data (chunkAt content i))
          ++ [RecvResult.data []]))).trace =
      (List.range (chunkCount content.length)).map
        (fun i => expectedFraction content.length (i + 1)) := by
    have hl := recvLoop_chunks (headerValue (RecvResult.data (sizeBytes content.length)))
      content.length content 0 (by omega)
    rw [← chunkCount_eq] at hl
    rw [progressValues_receive_video, hl, headerValue_sizeBytes _ hN]
    apply List.map_congr_left
    intro i hi
    exact hfrac i hi
  refine ⟨?_, ?_, length_chunkAt content, hpv, hrecv, ?_, ?_⟩
  · rw [htr, ← chunkCount_eq]
    congr 2
    apply List.flatMap_congr
    intro i hi
    simp only [sendIteration, hfrac i hi]
    rw [Nat.add_comm 1 i]
  · rw [hsb, List.tail_cons, chunkCount_eq]
  · intro h0
    rw [hsb, hpv, chunkCount_eq, h0]
    simp
  · intro h
    have hc : chunkCount content.length = 3 := by rw [chunkCount_eq, h]
    have hfr : (List.range (chunkCount content.length)).map
        (fun i => expectedFraction content.length (i + 1)) =
        [Fraction.finite (1024 / 2500), Fraction.finite (2048 / 2500), Fraction.finite 1] := by
      rw [hc]
      simp only [List.range, List.range.loop, List.map, expectedFraction, h]
      norm_num
    rw [hrecv, hsb, hpv, List.tail_cons, List.map_map, hfr]
    refine ⟨?_, rfl, rfl⟩
    rw [← chunkCount_eq, hc]
    simp only [List.range, List.range.loop, List.map, Function.comp, length_chunkAt, h]
    norm_num

/-- C3, at a file of 2500 bytes. -/
theorem chunk_schedule_witness :
    (List.replicate 2500 (0 : Byte)).length = 2500 ∧
    (sentBuffers (send_video 2500 (List.replicate 2500 (0 : Byte))
      (fun _ len => (len : Int))).trace).tail.map List.length = [1024, 1024, 452] ∧
    progressValues (send_video 2500 (List.replicate 2500 (0 : Byte))
      (fun _ len => (len : Int))).trace =
        [Fraction.finite (1024 / 2500), Fraction.finite (2048 / 2500), Fraction.finite 1] := by
  have h := (chunk_schedule (List.replicate 2500 (0 : Byte)) (fun _ len => (len : Int))
    (by rw [List.length_replicate]; decide) (fun _ len => Int.natCast_nonneg len)).2.2.2.2.2.2
    (List.length_replicate 2500 0)
  simp only [List.length_replicate, Nat.cast_ofNat] at h
  exact ⟨List.length_replicate 2500 0, h.1, h.2.1⟩

/-- C4. Progress is monotone: in one transfer, each fraction reported by `send_video`
(any file, whatever `ftell` and the `send` calls return) and each fraction reported by `receive_video`
(any header, any results of the `recv` calls) is greater than or equal to the one reported
just before. The sizes are those a `size_t` can count: a file, and a payload, of fewer than
`2 ^ 64` bytes. -/
theorem progress_monotone (ftell_ret : Int) (content : List Byte) (sendRet : Nat → Nat → Int)
    (header : RecvResult) (rest : List RecvResult)
    (hN : content.length < SIZE_RANGE) (hbytes : deliveredBytes rest < SIZE_RANGE) :
    List.Chain' Fraction.le (progressValues (send_video ftell_ret content sendRet).trace) ∧
    List.Chain' Fraction.le (progressValues (receive_video (header :: rest)).trace) := by
  constructor
  · obtain ⟨cs, h1, h2, _⟩ := sendLoop_progress (file_size ftell_ret) sendRet
      content.length content 0 1 (by omega) (by omega)
    show List.Chain' Fraction.le (progressValues (Event.send _ _ :: (sendLoop _ _ _ _ _).trace))
    simp only [progressValues, h1]
    exact chain_fdiv _ cs 0 h2
  · obtain ⟨cs, h1, h2, _⟩ := recvLoop_progress (headerValue header) rest 0 (by omega)
    rw [progressValues_receive_video, h1]
    exact chain_fdiv _ cs 0 h2

/-- C4, at a file of three bytes and a payload received in two pieces. -/
theorem progress_monotone_witness :
    List.Chain' Fraction.le
      (progressValues (send_video 3 [1, 2, 3] (fun _ len => (len : Int))).trace) ∧
    List.Chain' Fraction.le
      (progressValues (receive_video [RecvResult.data (sizeBytes 3), RecvResult.data [1, 2],
        RecvResult.data [3], RecvResult.data []]).trace) :=
  progress_monotone 3 [1, 2, 3] (fun _ len => (len : Int)) (RecvResult.data (sizeBytes 3))
    [RecvResult.data [1, 2], RecvResult.data [3], RecvResult.data []] (by decide) (by decide)


/-- C5 fails as stated. Receiver: with a header that declares 1 byte and a peer that sends a
chunk of 2 bytes, `receive_video` hands the fraction 2 to the progress bar. Sender: with a
file for which `ftell` reported 3 bytes and `fread` then delivers 6, `send_video` hands
the fraction 2 to the progress bar. -/
theorem progress_range_counterexample :
    progressValues (receive_video [RecvResult.data (sizeBytes 1), RecvResult.data [1, 2],
      RecvResult.data []]).trace = [Fraction.finite 2] ∧
    (¬ ∀ f ∈ progressValues (receive_video [RecvResult.data (sizeBytes 1),
      RecvResult.data [1, 2], RecvResult.data []]).trace, f.inUnit) ∧
    progressValues (send_video 3 [1, 2, 3, 4, 5, 6] (fun _ len => (len : Int))).trace
      = [Fraction.finite 2] ∧
    ¬ ∀ f ∈ progressValues (send_video 3 [1, 2, 3, 4, 5, 6]
      (fun _ len => (len : Int))).trace, f.inUnit := by
  have h : progressValues (receive_video [RecvResult.data (sizeBytes 1), RecvResult.data [1, 2],
      RecvResult.data []]).trace = [Fraction.finite 2] := by
    simp [receive_video, recvLoop, headerValue, sizeBytes, encodeLE, decodeLE, RecvResult.ret,
      RecvResult.bytes, progressValues, fdiv, SIZE_RANGE]
  have hs : progressValues (send_video 3 [1, 2, 3, 4, 5, 6] (fun _ len => (len : Int))).trace
      = [Fraction.finite 2] := by
    simp [send_video, sendLoop, file_size, progressValues, fdiv, BUFFER_SIZE, SIZE_RANGE]
    norm_num
  have h2 : ¬ (Fraction.finite 2).inUnit := by
    intro h2
    have h3 : (2 : ℚ) ≤ 1 := h2.2
    norm_num at h3
  refine ⟨h, ?_, hs, ?_⟩
  · rw [h]
    intro hall
    exact h2 (hall (Fraction.finite 2) (List.mem_singleton.mpr rfl))
  · rw [hs]
    intro hall
    exact h2 (hall (Fraction.finite 2) (List.mem_singleton.mpr rfl))

/-- C5, amended. Neither side clamps the fraction. The fractions `send_video` hands to the
progress bar all lie in `[0, 1]` exactly when `total_sent` does not exceed `file_size`, the
unchecked result of `ftell`; `total_sent` never exceeds the number of bytes `fread` delivers
and equals it when no `send` fails, so the fractions lie in `[0, 1]` whenever the file
delivers no more bytes than `ftell` reported. The fractions `receive_video` hands to the
progress bar all lie in `[0, 1]` exactly when the peer sends no more payload bytes than the
header declares. -/
theorem progress_in_range (ftell_ret : Int) (content : List Byte) (sendRet : Nat → Nat → Int)
    (header : RecvResult) (rest : List RecvResult)
    (hN : content.length < SIZE_RANGE) (hbytes : deliveredBytes rest < SIZE_RANGE) :
    ((∀ f ∈ progressValues (send_video ftell_ret content sendRet).trace, f.inUnit) ↔
      (send_video ftell_ret content sendRet).total_sent ≤ file_size ftell_ret) ∧
    (send_video ftell_ret content sendRet).total_sent ≤ content.length ∧
    ((∀ call len, 0 ≤ sendRet call len) →
      (send_video ftell_ret content sendRet).total_sent = content.length) ∧
    (content.length ≤ file_size ftell_ret →
      ∀ f ∈ progressValues (send_video ftell_ret content sendRet).trace, f.inUnit) ∧
    ((∀ f ∈ progressValues (receive_video (header :: rest)).trace, f.inUnit) ↔
      deliveredBytes rest ≤ headerValue header) := by
  obtain ⟨cs, h1, h2, h3, _, h5, h6⟩ := sendLoop_counts (file_size ftell_ret) sendRet
    content.length content 0 1 (by omega) (by omega)
  have hpv : progressValues (send_video ftell_ret content sendRet).trace =
      cs.map (fun c => fdiv c (file_size ftell_ret)) := by
    show progressValues (Event.send _ _ :: (sendLoop _ _ _ _ _).trace) = _
    simp only [progressValues, h1]
  have hts : (send_video ftell_ret content sendRet).total_sent =
      (sendLoop (file_size ftell_ret) sendRet content 0 1).total_sent := rfl
  rw [Nat.zero_add] at h5
  have hiff : (∀ f ∈ progressValues (send_video ftell_ret content sendRet).trace, f.inUnit) ↔
      (send_video ftell_ret content sendRet).total_sent ≤ file_size ftell_ret := by
    rw [hpv, hts]
    constructor
    · intro hall
      rcases h6 with ⟨_, h6⟩ | h6
      · rw [h6]; exact Nat.zero_le _
      · have hpos := chain_lt_mem cs 0 h2 _ h6
        exact (fdiv_inUnit_iff _ hpos).mp (hall _ (List.mem_map.mpr ⟨_, h6, rfl⟩))
    · intro hle f hf
      obtain ⟨c, hc, rfl⟩ := List.mem_map.mp hf
      have hpos : 0 < c := chain_lt_mem cs 0 h2 c hc
      rw [fdiv_inUnit_iff _ hpos]
      exact le_trans (h3 c hc) hle
  refine ⟨hiff, by rw [hts]; exact h5, ?_, ?_, ?_⟩
  · intro hret
    rw [(send_video_trace ftell_ret content sendRet hret).2, Nat.mod_eq_of_lt hN]
  · intro hle
    rw [hiff, hts]
    exact le_trans h5 hle
  · obtain ⟨cs, h1, h2, h3, _, h5⟩ := recvLoop_progress (headerValue header) rest 0 (by omega)
    rw [progressValues_receive_video, h1]
    simp only [Nat.zero_add] at h3 h5
    constructor
    · intro hall
      rcases h5 with h5 | h5
      · omega
      · have hpos : 0 < deliveredBytes rest := chain_lt_mem cs 0 h2 _ h5
        exact (fdiv_inUnit_iff _ hpos).mp
          (hall _ (List.mem_map.mpr ⟨deliveredBytes rest, h5, rfl⟩))
    · intro hle f hf
      obtain ⟨c, hc, rfl⟩ := List.mem_map.mp hf
      have hpos : 0 < c := chain_lt_mem cs 0 h2 c hc
      rw [fdiv_inUnit_iff _ hpos]
      have := h3 c hc
      omega

/-- C5 amended, at a file of six bytes for which `ftell` reported 3, and a peer that sends
2 bytes after declaring 1. -/
theorem progress_in_range_witness :
    ((∀ f ∈ progressValues (send_video 3 [1, 2, 3, 4, 5, 6]
        (fun _ len => (len : Int))).trace, f.inUnit) ↔
      (send_video 3 [1, 2, 3, 4, 5, 6] (fun _ len => (len : Int))).total_sent ≤ file_size 3) ∧
    (send_video 3 [1, 2, 3, 4, 5, 6] (fun _ len => (len : Int))).total_sent ≤
      [(1 : Byte), 2, 3, 4, 5, 6].length ∧
    ((∀ _call len : Nat, (0 : Int) ≤ (len : Int)) →
      (send_video 3 [1, 2, 3, 4, 5, 6] (fun _ len => (len : Int))).total_sent =
        [(1 : Byte), 2, 3, 4, 5, 6].length) ∧
    ([(1 : Byte), 2, 3, 4, 5, 6].length ≤ file_size 3 →
      ∀ f ∈ progressValues (send_video 3 [1, 2, 3, 4, 5, 6]
        (fun _ len => (len : Int))).trace, f.inUnit) ∧
    ((∀ f ∈ progressValues (receive_video (RecvResult.data (sizeBytes 1) ::
        [RecvResult.data [1, 2], RecvResult.data []])).trace, f.inUnit) ↔
      deliveredBytes [RecvResult.data [1, 2], RecvResult.data []] ≤
        headerValue (RecvResult.data (sizeBytes 1))) :=
  progress_in_range 3 [1, 2, 3, 4, 5, 6] (fun _ len => (len : Int))
    (RecvResult.data (sizeBytes 1)) [RecvResult.data [1, 2], RecvResult.data []]
    (by decide) (by decide)

/-- C6. Completion is not checked against the header: for every result of the header `recv`
and every payload of at least one non-empty chunk followed by a `recv` that returns 0,
`receive_video` gets to its end, the only label it sets is "Transfer complete", as its last
event, and the event just before it is a progress value that equals 1 if and only if the
number of payload bytes received equals the `total_size` read from the header. -/
theorem completion_unchecked (header : RecvResult) (pieces : List (List Byte))
    (hne : pieces ≠ []) (hpieces : ∀ p ∈ pieces, p ≠ [])
    (hbytes : pieces.flatten.length < SIZE_RANGE) :
    (receive_video (header :: (pieces.map RecvResult.data ++ [RecvResult.data []]))).returned
      = true ∧
    labels (receive_video (header ::
      (pieces.map RecvResult.data ++ [RecvResult.data []]))).trace =
        [Label.text "Transfer complete"] ∧
    ∃ (evs : List Event) (f : Fraction),
      (receive_video (header :: (pieces.map RecvResult.data ++ [RecvResult.data []]))).trace =
        evs ++ [Event.progress f, Event.label (Label.text "Transfer complete")] ∧
      (f = Fraction.finite 1 ↔ pieces.flatten.length = headerValue header) := by
  have h0 : (RecvResult.data ([] : List Byte)).ret ≤ 0 := by simp [RecvResult.ret]
  obtain ⟨h1, _, h3⟩ := recvLoop_pieces (headerValue header) (RecvResult.data []) [] h0
    pieces 0 hpieces
  have hd := deliveredBytes_pieces (RecvResult.data []) h0 pieces hpieces
  obtain ⟨cs, _, _, _, h4, _⟩ := recvLoop_progress (headerValue header)
    (pieces.map RecvResult.data ++ [RecvResult.data []]) 0 (by rw [hd]; omega)
  rw [hd, Nat.zero_add] at h4
  obtain ⟨evs, he⟩ := recvLoop_last (headerValue header) (RecvResult.data []) h0 pieces 0
    hne hpieces
  rw [h4] at he
  have hpos : 0 < pieces.flatten.length := by
    cases pieces with
    | nil => exact absurd rfl hne
    | cons p ps =>
      have hp : 0 < p.length := List.length_pos.mpr (hpieces p (List.mem_cons_self p ps))
      rw [List.flatten_cons, List.length_append]
      omega
  refine ⟨?_, ?_, evs, fdiv pieces.flatten.length (headerValue header), ?_,
    fdiv_eq_one_iff _ hpos⟩
  · rw [returned_receive_video]; exact h1
  · rw [labels_receive_video _ _ h1, h3]; rfl
  · simp only [receive_video, h1, if_true, he, List.append_assoc, List.singleton_append]

/-- C6, at one chunk of two bytes after a header that declares two bytes. -/
theorem completion_unchecked_witness :
    (receive_video (RecvResult.data (sizeBytes 2) ::
      ([[1, 2]].map RecvResult.data ++ [RecvResult.data []]))).returned = true ∧
    labels (receive_video (RecvResult.data (sizeBytes 2) ::
      ([[1, 2]].map RecvResult.data ++ [RecvResult.data []]))).trace =
        [Label.text "Transfer complete"] ∧
    ∃ (evs : List Event) (f : Fraction),
      (receive_video (RecvResult.data (sizeBytes 2) ::
        ([[1, 2]].map RecvResult.data ++ [RecvResult.data []]))).trace =
        evs ++ [Event.progress f, Event.label (Label.text "Transfer complete")] ∧
      (f = Fraction.finite 1 ↔
        [[(1 : Byte), 2]].flatten.length = headerValue (RecvResult.data (sizeBytes 2))) :=
  completion_unchecked (RecvResult.data (sizeBytes 2)) [[1, 2]] (by decide) (by decide)
    (by decide)

/-- C8 fails as stated: when the header `recv` obtains 3 bytes and the peer then closes,
`receive_video` still gets to its end with the label "Transfer complete"; and when a chunk
arrives after the 3 header bytes, it is written to the file. -/
theorem incomplete_header_counterexample :
    (RecvResult.data [5, 0, 0]).ret < 8 ∧
    labels (receive_video [RecvResult.data [5, 0, 0], RecvResult.data []]).trace =
      [Label.text "Transfer complete"] ∧
    fileContent (receive_video [RecvResult.data [5, 0, 0], RecvResult.data [9],
      RecvResult.data []]).trace = [9] ∧
    ¬ (fileContent (receive_video [RecvResult.data [5, 0, 0], RecvResult.data [9],
        RecvResult.data []]).trace = [] ∧
      Label.text "Transfer complete" ∉
        labels (receive_video [RecvResult.data [5, 0, 0], RecvResult.data [9],
          RecvResult.data []]).trace) := by
  refine ⟨by decide, by decide, by decide, ?_⟩
  intro h
  exact absurd h.1 (by decide)

/-- C8, amended. When the header `recv` obtains fewer than 8 bytes (or fails),
`receive_video` does not reject the transfer: `total_size` is the value of the bytes that
arrived (0 when none did), the payload loop runs, every later non-empty chunk is written to the
file, and when the loop is left the label is "Transfer complete". -/
theorem incomplete_header_accepted (header : RecvResult) (pieces : List (List Byte))
    (t : RecvResult) (hshort : header.ret < 8) (hpieces : ∀ p ∈ pieces, p ≠ [])
    (ht : t.ret ≤ 0) :
    (receive_video (header :: (pieces.map RecvResult.data ++ [t]))).returned = true ∧
    (receive_video (header :: (pieces.map RecvResult.data ++ [t]))).total_size =
      decodeLE header.bytes ∧
    fileContent (receive_video (header :: (pieces.map RecvResult.data ++ [t]))).trace =
      pieces.flatten ∧
    labels (receive_video (header :: (pieces.map RecvResult.data ++ [t]))).trace =
      [Label.text "Transfer complete"] := by
  obtain ⟨h1, h2, h3⟩ := recvLoop_pieces (headerValue header) t [] ht pieces 0 hpieces
  refine ⟨?_, ?_, ?_, ?_⟩
  · rw [returned_receive_video]; exact h1
  · have hlen : header.bytes.length ≤ 8 := by
      cases header with
      | data bs =>
        simp only [RecvResult.ret] at hshort
        simp only [RecvResult.bytes]
        omega
      | failed => simp [RecvResult.bytes]
    have htotal : (receive_video (header :: (pieces.map RecvResult.data ++ [t]))).total_size =
        headerValue header := by
      simp only [receive_video]
      split <;> rfl
    rw [htotal, headerValue, List.take_of_length_le hlen]
  · rw [fileContent_receive_video]; exact h2
  · rw [labels_receive_video _ _ h1, h3]; rfl

/-- C8 amended, at a header `recv` that obtains 3 bytes, followed by a one-byte chunk. -/
theorem incomplete_header_accepted_witness :
    (receive_video (RecvResult.data [5, 0, 0] ::
      ([[9]].map RecvResult.data ++ [RecvResult.data []]))).returned = true ∧
    (receive_video (RecvResult.data [5, 0, 0] ::
      ([[9]].map RecvResult.data ++ [RecvResult.data []]))).total_size =
        decodeLE (RecvResult.data [5, 0, 0]).bytes ∧
    fileContent (receive_video (RecvResult.data [5, 0, 0] ::
      ([[9]].map RecvResult.data ++ [RecvResult.data []]))).trace = [[(9 : Byte)]].flatten ∧
    labels (receive_video (RecvResult.data [5, 0, 0] ::
      ([[9]].map RecvResult.data ++ [RecvResult.data []]))).trace =
        [Label.text "Transfer complete"] :=
  incomplete_header_accepted (RecvResult.data [5, 0, 0]) [[9]] (RecvResult.data [])
    (by decide) (by decide) (by decide)

/-- C9 fails as stated: when the `recv` after a one-byte chunk fails with a negative result,
the only label `receive_video` sets is "Transfer complete". -/
theorem recv_error_counterexample :
    RecvResult.failed.ret < 0 ∧
    labels (receive_video [RecvResult.data (sizeBytes 1), RecvResult.data [7],
      RecvResult.failed]).trace = [Label.text "Transfer complete"] ∧
    ¬ ((labels (receive_video [RecvResult.data (sizeBytes 1), RecvResult.data [7],
      RecvResult.failed]).trace).getLast? ≠ some (Label.text "Transfer complete")) := by
  refine ⟨by decide, by decide, ?_⟩
  intro h
  exact h (by decide)

/-- C9, amended. In the receive loop of `receive_video` a negative `recv` result is not told
apart from 0: both leave the loop in the same way, everything `receive_video` does is the same
as if the peer had closed, and the label is "Transfer complete". -/
theorem recv_error_same_as_close (header : RecvResult) (pieces : List (List Byte))
    (t : RecvResult) (hpieces : ∀ p ∈ pieces, p ≠ []) (ht : t.ret ≤ 0) :
    receive_video (header :: (pieces.map RecvResult.data ++ [t])) =
      receive_video (header :: (pieces.map RecvResult.data ++ [RecvResult.data []])) ∧
    (receive_video (header :: (pieces.map RecvResult.data ++ [t]))).returned = true ∧
    labels (receive_video (header :: (pieces.map RecvResult.data ++ [t]))).trace =
      [Label.text "Transfer complete"] := by
  have h0 : (RecvResult.data ([] : List Byte)).ret ≤ 0 := by simp [RecvResult.ret]
  obtain ⟨h1, _, h3⟩ := recvLoop_pieces (headerValue header) t [] ht pieces 0 hpieces
  refine ⟨?_, ?_, ?_⟩
  · simp only [receive_video,
      recvLoop_end_irrelevant (headerValue header) t (RecvResult.data []) ht h0 pieces 0]
  · rw [returned_receive_video]; exact h1
  · rw [labels_receive_video _ _ h1, h3]; rfl

/-- C9 amended, at a one-byte chunk followed by a failed `recv`. -/
theorem recv_error_same_as_close_witness :
    receive_video (RecvResult.data (sizeBytes 1) ::
        ([[7]].map RecvResult.data ++ [RecvResult.failed])) =
      receive_video (RecvResult.data (sizeBytes 1) ::
        ([[7]].map RecvResult.data ++ [RecvResult.data []])) ∧
    (receive_video (RecvResult.data (sizeBytes 1) ::
      ([[7]].map RecvResult.data ++ [RecvResult.failed]))).returned = true ∧
    labels (receive_video (RecvResult.data (sizeBytes 1) ::
      ([[7]].map RecvResult.data ++ [RecvResult.failed]))).trace =
        [Label.text "Transfer complete"] :=
  recv_error_same_as_close (RecvResult.data (sizeBytes 1)) [[7]] RecvResult.failed
    (by decide) (by decide)


/-- C10, the code at a short write. The file has 1025 bytes, as `ftell` reports; the `send` of the first chunk
of 1024 bytes returns 100, every other `send` succeeds in full. `send_video` does not stop:
it counts the whole chunk, reports progress, sends the second chunk and ends with
"Transfer Complete!", with `total_sent = 1025` while the socket took 101 payload bytes. -/
theorem short_write_undetected :
    (send_video 1025 (List.replicate 1025 (0 : Byte)) shortFirstChunk).total_sent = 1025 ∧
    ((acceptedBuffers (send_video 1025 (List.replicate 1025 (0 : Byte))
      shortFirstChunk).trace).tail.flatten).length = 101 ∧
    (sentBuffers (send_video 1025 (List.replicate 1025 (0 : Byte)) shortFirstChunk).trace).map
      List.length = [8, 1024, 1] ∧
    progressValues (send_video 1025 (List.replicate 1025 (0 : Byte)) shortFirstChunk).trace
      = [Fraction.finite (1024 / 1025), Fraction.finite 1] ∧
    (labels (send_video 1025 (List.replicate 1025 (0 : Byte)) shortFirstChunk).trace).getLast?
      = some (Label.text "Transfer Complete!") := by
  have hret : ∀ c l : Nat, 0 ≤ shortFirstChunk c l := by
    intro c l
    unfold shortFirstChunk
    split
    · norm_num
    · exact Int.natCast_nonneg l
  obtain ⟨htr, hts⟩ := send_video_trace 1025 (List.replicate 1025 (0 : Byte)) shortFirstChunk hret
  have hlen : (List.replicate 1025 (0 : Byte)).length = 1025 := List.length_replicate _ _
  rw [hlen] at htr hts
  have hn : (1025 + 1023) / 1024 = 2 := by norm_num
  have hm : 1025 % SIZE_RANGE = 1025 := by decide
  have hf : file_size 1025 = 1025 := by decide
  rw [hn, hf] at htr
  rw [htr, hts, hm]
  simp only [List.range, List.range.loop, List.flatMap_cons, List.flatMap_nil, sendIteration,
    List.append_nil, List.cons_append, List.nil_append, acceptedBuffers, sentBuffers,
    progressValues, labels, List.tail_cons, List.flatten_cons, List.flatten_nil, List.map_cons,
    List.map_nil, length_chunkAt, hlen, List.length_append, List.length_take, length_sizeBytes,
    shortFirstChunk]
  refine ⟨trivial, by decide, by decide, ?_, by simp⟩
  have e1 : (0 + min (1024 * (0 + 1)) 1025) % SIZE_RANGE = 1024 := by decide
  have e2 : (0 + min (1024 * (1 + 1)) 1025) % SIZE_RANGE = 1025 := by decide
  rw [e1, e2, fdiv_of_ne_zero 1024 (by decide), fdiv_of_ne_zero 1025 (by decide)]
  norm_num

end VideoTransfer
